import Mathlib

/-!
Verification of the routing engine of the navigation service
(`services/routing_service.py` and the `/api/navigation/route` handler in
`routes/navigation_routes.py`), as a shallow embedding.

Conventions of the embedding:
* UUIDs are modelled by `Nat` (the code keys the graph by `str(node.id)`;
  `str` is injective on UUIDs, so keeping the same carrier is faithful).
* Float coordinates, distances and weights are modelled by `ℚ`.
* The database is a snapshot value: lists of rows in physical row order.
  SQL `ORDER BY dist LIMIT 1` is modelled as "first row attaining the
  minimal key in row order"; SQL leaves the relative order of equal keys
  unspecified, and the scan-order choice is the canonical refinement.
* `networkx.Graph` is modelled by its node list and edge list in insertion
  order; a later `add_edge` on the same unordered vertex pair overrides the
  earlier attributes, and edge lookup is symmetric.
* `nx.shortest_path` / `nx.shortest_path_length` (Dijkstra over positive
  weights) are modelled by exhaustive minimisation over all duplicate-free
  adjacency chains; both a correct Dijkstra and this model return a
  minimum-weight path and the minimum weight.
* Python exceptions become `Except`: `ValueError` and "any other exception"
  are the two constructors, matching the two `except` arms of the handler.
-/

/-- Vertices of the routing graph: `str(uuid)` keys, modelled by `Nat`. -/
abbrev V := Nat

/-- Row of the `routing_nodes` table (geometry decoded to lng/lat). -/
structure RoutingNode where
  id : Nat
  floor_id : Nat
  node_type_id : Nat
  lng : ℚ
  lat : ℚ
deriving DecidableEq, Repr

/-- Row of the `routing_edges` table. -/
structure RoutingEdge where
  id : Nat
  from_node_id : Nat
  to_node_id : Nat
  edge_type_id : Nat
  distance : ℚ
deriving DecidableEq, Repr

/-- Row of the `edge_types` table. -/
structure EdgeType where
  id : Nat
  is_accessible : Bool
deriving DecidableEq, Repr

/-- Row of the `pois` table (geometry decoded to lng/lat). -/
structure POI where
  id : Nat
  floor_id : Nat
  lng : ℚ
  lat : ℚ
deriving DecidableEq, Repr

/-- A database snapshot: the tables the routing engine reads. -/
structure DB where
  routing_nodes : List RoutingNode
  routing_edges : List RoutingEdge
  edge_types : List EdgeType
  pois : List POI
deriving DecidableEq, Repr

/-- Attributes attached to a graph node by `G.add_node`. -/
structure NodeAttrs where
  floor_id : Nat
  lat : ℚ
  lng : ℚ
  node_type_id : Nat
deriving DecidableEq, Repr

/-- Attributes attached to a graph edge by `G.add_edge`. -/
structure EdgeAttrs where
  weight : ℚ
  edge_type_id : Nat
deriving DecidableEq, Repr

/-- An `nx.Graph` value: nodes and edges in insertion order. -/
structure Graph where
  nodeList : List (V × NodeAttrs)
  edgeList : List (V × V × EdgeAttrs)
deriving DecidableEq, Repr

/-- `G.nodes[v]`: attribute lookup; the latest `add_node` wins. -/
def Graph.nodeAttr? (G : Graph) (v : V) : Option NodeAttrs :=
  (G.nodeList.reverse.find? (fun p => p.1 = v)).map (fun p => p.2)

/-- `G.get_edge_data(u, v)`: symmetric edge lookup; the latest `add_edge`
on the same unordered pair wins. -/
def Graph.edgeData? (G : Graph) (u v : V) : Option EdgeAttrs :=
  (G.edgeList.reverse.find?
      (fun e => (e.1 = u && e.2.1 = v) || (e.1 = v && e.2.1 = u))).map
    (fun e => e.2.2)

/-- The weight attribute of the edge between `u` and `v`, if present. -/
def Graph.weight? (G : Graph) (u v : V) : Option ℚ :=
  (G.edgeData? u v).map (fun a => a.weight)

/-- All vertices present in the graph: explicitly added nodes together with
endpoints implicitly created by `add_edge`. -/
def Graph.nodeIds (G : Graph) : List V :=
  (G.nodeList.map (fun p => p.1) ++
    G.edgeList.flatMap (fun e => [e.1, e.2.1])).dedup

/-- `v in G`. -/
def Graph.hasNode (G : Graph) (v : V) : Prop := v ∈ G.nodeIds

instance (G : Graph) (v : V) : Decidable (G.hasNode v) := by
  unfold Graph.hasNode; infer_instance

/-- Adjacency in the graph. -/
def Graph.adj (G : Graph) (u v : V) : Bool := (G.weight? u v).isSome

/-- Total weight of a vertex list read as a walk: the sum of the weights of
its consecutive edges (missing edges contribute their absent lookup,
defaulted to 0; on an adjacency chain every lookup succeeds). -/
def wsum (G : Graph) : List V → ℚ
  | u :: v :: rest => (G.weight? u v).getD 0 + wsum G (v :: rest)
  | _ => 0

/-- Whether consecutive list elements are all adjacent in the graph. -/
def isChain (G : Graph) : List V → Bool
  | u :: v :: rest => G.adj u v && isChain G (v :: rest)
  | _ => true

/-- `p` is a walk in `G` from `s` to `t`. -/
def IsWalk (G : Graph) (s t : V) (p : List V) : Prop :=
  p.head? = some s ∧ p.getLast? = some t ∧ isChain G p = true

instance (G : Graph) (s t : V) (p : List V) : Decidable (IsWalk G s t p) := by
  unfold IsWalk; infer_instance

/-- Depth-first enumeration of the duplicate-free walks from `u` to `t`
that avoid `visited` after their first vertex. -/
def dfsPaths (G : Graph) : Nat → List V → V → V → List (List V)
  | 0, _, _, _ => []
  | fuel + 1, visited, u, t =>
    if u = t then [[u]]
    else
      (G.nodeIds.filter (fun v => G.adj u v && !(visited.contains v))).flatMap
        (fun v => (dfsPaths G fuel (v :: visited) v t).map (fun p => u :: p))

/-- All duplicate-free walks from `s` to `t` in `G`. -/
def allSimplePaths (G : Graph) (s t : V) : List (List V) :=
  dfsPaths G (G.nodeIds.length + 1) [s] s t

/-- First minimum-weight element of a list of candidate paths. -/
def argminPath (G : Graph) : List (List V) → Option (List V)
  | [] => none
  | p :: rest =>
    match argminPath G rest with
    | none => some p
    | some q => if wsum G p ≤ wsum G q then some p else some q

/-- Model of `nx.shortest_path(G, s, t, weight="weight")`: a minimum-weight
path from `s` to `t`, or `none` when none exists. -/
def shortest_path (G : Graph) (s t : V) : Option (List V) :=
  argminPath G (allSimplePaths G s t)

/-- Model of `nx.shortest_path_length(G, s, t, weight="weight")`: the
minimum total weight over all paths from `s` to `t`. -/
def shortest_path_length (G : Graph) (s t : V) : Option ℚ :=
  ((allSimplePaths G s t).map (wsum G)).min?

/-- Model of `nx.has_path(G, s, t)`. -/
def has_path (G : Graph) (s t : V) : Bool :=
  !(allSimplePaths G s t).isEmpty

/-- Squared planar distance from a routing node to the query point
`POINT(lng lat)`; `ST_Distance` ordering on planar points coincides with
squared-distance ordering. -/
def dist2 (lng lat : ℚ) (n : RoutingNode) : ℚ :=
  (n.lng - lng) * (n.lng - lng) + (n.lat - lat) * (n.lat - lat)

/-- `find_nearest_node`: rows of `routing_nodes` with the given floor,
ordered by `ST_Distance` to the query point, `LIMIT 1`.  Modelled as the
first row (in row order) attaining the minimal distance. -/
def find_nearest_node (db : DB) (floor_id : Nat) (lat lng : ℚ) :
    Option RoutingNode :=
  (db.routing_nodes.filter (fun n => n.floor_id = floor_id)).foldl
    (fun best n =>
      match best with
      | none => some n
      | some b => if dist2 lng lat n < dist2 lng lat b then some n else best)
    none

/-- The SQL `join(EdgeType).where(EdgeType.is_accessible == True)`: the edge
row survives iff a matching `edge_types` row exists and is accessible. -/
def edgeTypeAccessible (db : DB) (edge_type_id : Nat) : Bool :=
  db.edge_types.any (fun t => t.id = edge_type_id && t.is_accessible)

/-- `build_graph_for_floors`: load the routing nodes of the requested
floors, then the edges with both endpoints among the loaded node ids
(restricted to accessible edge types when `accessible_only`), and assemble
the `nx.Graph`. -/
def build_graph_for_floors (db : DB) (floor_ids : List Nat)
    (accessible_only : Bool) : Graph :=
  let nodes := db.routing_nodes.filter (fun n => n.floor_id ∈ floor_ids)
  let node_ids := nodes.map (fun n => n.id)
  let edges0 := db.routing_edges.filter
    (fun e => e.from_node_id ∈ node_ids && e.to_node_id ∈ node_ids)
  let edges :=
    if accessible_only then
      edges0.filter (fun e => edgeTypeAccessible db e.edge_type_id)
    else edges0
  { nodeList := nodes.map (fun n =>
      (n.id, ⟨n.floor_id, n.lat, n.lng, n.node_type_id⟩)),
    edgeList := edges.map (fun e =>
      (e.from_node_id, e.to_node_id, ⟨e.distance, e.edge_type_id⟩)) }

/-- Python banker's rounding of a rational to the nearest integer. -/
def pyRoundInt (q : ℚ) : ℤ :=
  if q - ⌊q⌋ < 1 / 2 then ⌊q⌋
  else if q - ⌊q⌋ > 1 / 2 then ⌊q⌋ + 1
  else if ⌊q⌋ % 2 = 0 then ⌊q⌋ else ⌊q⌋ + 1

/-- Python `round(q, n)`. -/
def pyRound (q : ℚ) (n : Nat) : ℚ :=
  (pyRoundInt (q * 10 ^ n) : ℚ) / 10 ^ n

/-- The abstract instructions emitted by `generate_steps`; `render` below
maps each to the exact string the code produces. `continueMarker` carries
the already rounded edge weight. -/
inductive Step where
  | headTowards
  | startOnFloor (f : Nat)
  | changeToFloor (f : Nat)
  | continueMarker (w : ℚ)
  | arrived
  | arrivedShort
deriving DecidableEq, Repr

/-- Decimal rendering of a rational that is a multiple of 1/10 (the rounded
edge weights fed to `continueMarker`). -/
def formatTenths (q : ℚ) : String :=
  (if q < 0 then "-" else "") ++
    toString ((q * 10).floor.natAbs / 10) ++ "." ++
    toString ((q * 10).floor.natAbs % 10)

/-- The literal instruction strings of `generate_steps`. -/
def render : Step → String
  | .headTowards => "Head towards destination"
  | .startOnFloor f => "Start on floor " ++ toString f
  | .changeToFloor f => "Change to floor " ++ toString f
  | .continueMarker w => "Continue straight for " ++ formatTenths w ++ "m"
  | .arrived => "You have arrived at your destination"
  | .arrivedShort => "You have arrived"

/-- The `for i, node in enumerate(path)` loop of `generate_steps`: floor
change detection plus the every-fifth-vertex distance markers. `n` is the
total path length, `i` the index of the current vertex, `curFloor` the
`current_floor` variable and `prev` the previous path vertex. -/
def stepsLoop (G : Graph) (n : Nat) :
    List (V × NodeAttrs) → Nat → Option Nat → Option V → List Step
  | [], _, _, _ => []
  | (v, a) :: rest, i, curFloor, prev =>
    (match curFloor with
      | none => []
      | some cf =>
        if cf ≠ a.floor_id then [Step.changeToFloor a.floor_id] else []) ++
    (if 0 < i ∧ i % 5 = 0 ∧ i < n - 1 then
        match prev with
        | some p =>
          match G.edgeData? p v with
          | some ea => [Step.continueMarker (pyRound ea.weight 1)]
          | none => []
        | none => []
      else []) ++
    stepsLoop G n rest (i + 1) (some a.floor_id) (some v)

/-- Resolve every path vertex through `G.nodes[...]`; `none` iff some
vertex is missing (the Python code raises `KeyError` there). -/
def annPath (G : Graph) : List V → Option (List (V × NodeAttrs))
  | [] => some []
  | v :: rest =>
    match G.nodeAttr? v, annPath G rest with
    | some a, some l => some ((v, a) :: l)
    | _, _ => none

/-- `generate_steps` on the attribute-resolved path. -/
def genStepsAbs (G : Graph) (ann : List (V × NodeAttrs)) : List Step :=
  match ann with
  | [] => [Step.arrivedShort]
  | first :: rest =>
    let lastA := (first :: rest).getLast (List.cons_ne_nil first rest)
    (if first.2.floor_id ≠ lastA.2.floor_id then Step.startOnFloor first.2.floor_id
      else Step.headTowards) ::
      (stepsLoop G (first :: rest).length (first :: rest) 0 none none ++
        [Step.arrived])

/-- `generate_steps(G, path, start_lng, start_lat, end_lng, end_lat)`.
The coordinate arguments are unused by the code; `none` models the
`KeyError` raised when a path vertex is not a node of `G`. -/
def generate_steps (G : Graph) (path : List V)
    (_start_lng _start_lat _end_lng _end_lat : ℚ) : Option (List String) :=
  (annPath G path).map (fun ann => (genStepsAbs G ann).map render)

/-- One `floors_data[floor_id].append(coord)` step on the insertion-ordered
association list modelling the Python dict. -/
def addCoord (acc : List (Nat × List (ℚ × ℚ))) (f : Nat) (c : ℚ × ℚ) :
    List (Nat × List (ℚ × ℚ)) :=
  match acc with
  | [] => [(f, [c])]
  | (g, cs) :: rest =>
    if g = f then (g, cs ++ [c]) :: rest else (g, cs) :: addCoord rest f c

/-- The path-decomposition loop of `calculate_route`: group the coordinates
`[lng, lat]` of the path vertices by floor id, in first-seen dict insertion
order; `none` models the `KeyError` on a vertex absent from `G`. -/
def groupPathByFloors (G : Graph) (path : List V) :
    Option (List (Nat × List (ℚ × ℚ))) :=
  (annPath G path).map (fun ann =>
    ann.foldl (fun acc va => addCoord acc va.2.floor_id (va.2.lng, va.2.lat)) [])

/-- The two exception classes distinguished by the API handler:
`ValueError` and any other exception. -/
inductive RouteError where
  | valueError (msg : String)
  | otherError (msg : String)
deriving DecidableEq, Repr

/-- The success payload of `calculate_route`. -/
structure RouteResult where
  floors : List (Nat × List (ℚ × ℚ))
  distance : ℚ
  steps : List String
deriving DecidableEq, Repr

/-- `calculate_route` of `routing_service.py`: resolve the POI, the nearest
start and end nodes, build the two-floor graph, check connectivity, solve,
decompose and narrate. Raised exceptions become `Except.error`. -/
def calculate_route (db : DB) (from_floor_id : Nat) (from_lat from_lng : ℚ)
    (to_poi_id : Nat) (accessible : Bool) : Except RouteError RouteResult :=
  match db.pois.find? (fun p => p.id = to_poi_id) with
  | none => .error (.valueError "POI not found")
  | some poi =>
    match find_nearest_node db from_floor_id from_lat from_lng,
          find_nearest_node db poi.floor_id poi.lat poi.lng with
    | some start_node, some end_node =>
      let floor_ids :=
        if from_floor_id = poi.floor_id then [from_floor_id]
        else [from_floor_id, poi.floor_id]
      let G := build_graph_for_floors db floor_ids accessible
      if has_path G start_node.id end_node.id then
        match shortest_path G start_node.id end_node.id,
              shortest_path_length G start_node.id end_node.id with
        | some path, some total_distance =>
          match groupPathByFloors G path,
                generate_steps G path from_lng from_lat poi.lng poi.lat with
          | some floors, some steps =>
            .ok ⟨floors, pyRound total_distance 2, steps⟩
          | _, _ => .error (.otherError "KeyError")
        | _, _ => .error (.otherError "NetworkXNoPath")
      else .error (.valueError "No route found between start and destination")
    | _, _ =>
      .error (.valueError "Could not find routing nodes near start or destination")

/-- An HTTP response of the `/api/navigation/route` endpoint (status code
and detail; the success body is elided). -/
structure HTTPResult where
  status : Nat
  detail : String
deriving DecidableEq, Repr

/-- The `/api/navigation/route` handler of `navigation_routes.py`:
pre-check the POI, call the service, map `ValueError` to 404 and any other
exception to 500. -/
def route_endpoint (db : DB) (from_floor_id : Nat) (from_lat from_lng : ℚ)
    (to_poi_id : Nat) (accessible : Bool) : HTTPResult :=
  match db.pois.find? (fun p => p.id = to_poi_id) with
  | none => ⟨404, "Destination POI not found"⟩
  | some _ =>
    match calculate_route db from_floor_id from_lat from_lng to_poi_id
        accessible with
    | .ok _ => ⟨200, "ok"⟩
    | .error (.valueError m) => ⟨404, m⟩
    | .error (.otherError m) => ⟨500, "Route calculation failed: " ++ m⟩


/-- The coordinates (as `[lng, lat]` pairs) of the path vertices lying on
floor `f`, in path order — the merged per-floor coordinate list that the
Path Decomposer is claimed to produce. -/
def floorCoords (G : Graph) (path : List V) (f : Nat) : List (ℚ × ℚ) :=
  path.filterMap (fun v => (G.nodeAttr? v).bind
    (fun a => if a.floor_id = f then some (a.lng, a.lat) else none))

/-- The per-floor coordinates of an attribute-annotated path. -/
def annCoords (l : List (V × NodeAttrs)) (f : Nat) : List (ℚ × ℚ) :=
  l.filterMap (fun va =>
    if va.2.floor_id = f then some (va.2.lng, va.2.lat) else none)

/-- The distance values carried by the `continueMarker` instructions of a
step list, in order. -/
def markersOf (l : List Step) : List ℚ :=
  l.filterMap (fun s =>
    match s with
    | Step.continueMarker w => some w
    | _ => none)

/-- The marker contributions of the instruction loop, separated from the
floor-change instructions: same recursion as `stepsLoop`, markers only. -/
def expLoop (G : Graph) (n : Nat) :
    List (V × NodeAttrs) → Nat → Option V → List ℚ
  | [], _, _ => []
  | (v, _) :: rest, i, prev =>
    (if 0 < i ∧ i % 5 = 0 ∧ i < n - 1 then
        match prev with
        | some p =>
          match G.edgeData? p v with
          | some ea => [pyRound ea.weight 1]
          | none => []
        | none => []
      else []) ++ expLoop G n rest (i + 1) (some v)

/-- The claimed marker positions: every fifth vertex index, excluding the
first and the last vertex of a length-`n` path. -/
def markerPositions (n : Nat) : List Nat :=
  (List.range n).filter (fun i => decide (0 < i ∧ i % 5 = 0 ∧ i < n - 1))

/-- The claimed marker values: at each marker position, the weight of the
edge just traversed (from the previous path vertex), rounded to one
decimal place. -/
def expectedMarkers (G : Graph) (path : List V) : List ℚ :=
  (markerPositions path.length).map (fun i =>
    pyRound ((G.weight? (path.getD (i - 1) 0) (path.getD i 0)).getD 0) 1)

/-! ## Concrete fixtures used by witnesses and counterexamples -/

/-- A small two-floor fixture database: three chained nodes on floor 0
(edge 1-2 accessible, edge 2-3 via an inaccessible edge type), one
isolated node on floor 1, and POIs on both floors. -/
def dbFix : DB :=
  { routing_nodes :=
      [⟨1, 0, 0, 0, 0⟩, ⟨2, 0, 0, 1, 0⟩, ⟨3, 0, 0, 2, 0⟩, ⟨4, 1, 0, 0, 0⟩],
    routing_edges := [⟨10, 1, 2, 50, 1⟩, ⟨11, 2, 3, 60, 2⟩],
    edge_types := [⟨50, true⟩, ⟨60, false⟩],
    pois := [⟨100, 0, 2, 0⟩, ⟨101, 1, 0, 0⟩] }

/-- A fixture database with two equidistant nodes on floor 0 where the
higher node id comes first in row order. -/
def dbTie : DB :=
  { routing_nodes := [⟨2, 0, 0, 1, 0⟩, ⟨1, 0, 0, 0, 1⟩],
    routing_edges := [], edge_types := [], pois := [] }

/-- A small weighted graph fixture: a triangle 1-2-3 with a shortcut, all
on one floor, plus a chain long enough to trigger distance markers. -/
def gFix : Graph :=
  { nodeList :=
      [(1, ⟨0, 0, 0, 0⟩), (2, ⟨0, 0, 1, 0⟩), (3, ⟨0, 0, 2, 0⟩),
        (4, ⟨0, 0, 3, 0⟩), (5, ⟨0, 0, 4, 0⟩), (6, ⟨0, 0, 5, 0⟩),
        (7, ⟨0, 0, 6, 0⟩), (8, ⟨1, 0, 7, 0⟩)],
    edgeList :=
      [(1, 2, ⟨1, 50⟩), (2, 3, ⟨2, 50⟩), (1, 3, ⟨7, 50⟩),
        (3, 4, ⟨1, 50⟩), (4, 5, ⟨1, 50⟩), (5, 6, ⟨3/2, 50⟩),
        (6, 7, ⟨1, 50⟩), (7, 8, ⟨1, 50⟩)] }

/-! ## Graph assembly invariants -/

/-- The node-id list of the assembled graph is the id list of the loaded
routing nodes. -/
theorem build_graph_nodeList_map (db : DB) (fs : List Nat) (acc : Bool) :
    (build_graph_for_floors db fs acc).nodeList.map Prod.fst =
      (db.routing_nodes.filter (fun n => n.floor_id ∈ fs)).map
        (fun n => n.id) := by
  simp [build_graph_for_floors]

/-- Every edge entry of the assembled graph comes from a database edge row
with both endpoints among the loaded node ids (and, when filtering, an
accessible edge type). -/
theorem build_graph_edge_mem (db : DB) (fs : List Nat) (acc : Bool) (x : V × V × EdgeAttrs)
    (hx : x ∈ (build_graph_for_floors db fs acc).edgeList) :
    ∃ e ∈ db.routing_edges,
      x = (e.from_node_id, e.to_node_id,
            (⟨e.distance, e.edge_type_id⟩ : EdgeAttrs)) ∧
      e.from_node_id ∈ (db.routing_nodes.filter
          (fun n => n.floor_id ∈ fs)).map (fun n => n.id) ∧
      e.to_node_id ∈ (db.routing_nodes.filter
          (fun n => n.floor_id ∈ fs)).map (fun n => n.id) ∧
      (acc = true → edgeTypeAccessible db e.edge_type_id = true) := by
  cases acc with
  | false =>
    simp only [build_graph_for_floors, Bool.false_eq_true, if_false,
      List.mem_map, List.mem_filter, Bool.and_eq_true, decide_eq_true_eq] at hx
    obtain ⟨e, ⟨he, h1, h2⟩, hmk⟩ := hx
    refine ⟨e, he, hmk.symm, ?_, ?_, by simp⟩
    · simpa [List.mem_map, List.mem_filter] using h1
    · simpa [List.mem_map, List.mem_filter] using h2
  | true =>
    simp only [build_graph_for_floors, if_true, List.mem_map, List.mem_filter,
      Bool.and_eq_true, decide_eq_true_eq] at hx
    obtain ⟨e, ⟨⟨he, h1, h2⟩, hacc⟩, hmk⟩ := hx
    refine ⟨e, he, hmk.symm, ?_, ?_, fun _ => hacc⟩
    · simpa [List.mem_map, List.mem_filter] using h1
    · simpa [List.mem_map, List.mem_filter] using h2

/-- C6: every edge of the graph built by `build_graph_for_floors` has both
endpoints among the loaded vertices (edges are pre-filtered to endpoints
within the loaded node ids), and a floor set yielding zero routing nodes
produces the empty graph. -/
theorem build_graph_no_dangling (db : DB) (fs : List Nat) (acc : Bool) :
    (∀ x ∈ (build_graph_for_floors db fs acc).edgeList,
        x.1 ∈ (build_graph_for_floors db fs acc).nodeList.map Prod.fst ∧
        x.2.1 ∈ (build_graph_for_floors db fs acc).nodeList.map Prod.fst) ∧
    (db.routing_nodes.filter (fun n => n.floor_id ∈ fs) = [] →
      (build_graph_for_floors db fs acc).nodeList = [] ∧
      (build_graph_for_floors db fs acc).edgeList = []) := by
  constructor
  · intro x hx
    obtain ⟨e, _, hmk, h1, h2, _⟩ := build_graph_edge_mem db fs acc x hx
    rw [build_graph_nodeList_map, hmk]
    exact ⟨h1, h2⟩
  · intro hempty
    constructor
    · simp [build_graph_for_floors, hempty]
    · rcases h : (build_graph_for_floors db fs acc).edgeList with _ | ⟨x, rest⟩
      · rfl
      · exfalso
        have hx : x ∈ (build_graph_for_floors db fs acc).edgeList := by
          rw [h]; exact List.mem_cons_self x rest
        obtain ⟨e, _, _, h1, _, _⟩ := build_graph_edge_mem db fs acc x hx
        rw [hempty] at h1
        simp at h1

/-- Witness for the empty-floor-set hypothesis of `build_graph_no_dangling`. -/
theorem build_graph_no_dangling_witness :
    (build_graph_for_floors
        ⟨[⟨1, 0, 0, 0, 0⟩], [⟨7, 1, 1, 3, 1⟩], [⟨3, true⟩], []⟩ [5] true).nodeList = [] ∧
    (build_graph_for_floors
        ⟨[⟨1, 0, 0, 0, 0⟩], [⟨7, 1, 1, 3, 1⟩], [⟨3, true⟩], []⟩ [5] true).edgeList = [] :=
  (build_graph_no_dangling ⟨[⟨1, 0, 0, 0, 0⟩], [⟨7, 1, 1, 3, 1⟩], [⟨3, true⟩], []⟩
      [5] true).2 (by decide)

/-- C10: the vertex set of the graph built by `build_graph_for_floors` is
exactly the set of routing nodes loaded for the requested floors; adding
the pre-filtered edges introduces no vertex outside that set. -/
theorem build_graph_vertex_set (db : DB) (fs : List Nat) (acc : Bool) (v : V) :
    (build_graph_for_floors db fs acc).hasNode v ↔
      ∃ n ∈ db.routing_nodes, n.id = v ∧ n.floor_id ∈ fs := by
  unfold Graph.hasNode Graph.nodeIds
  rw [List.mem_dedup, List.mem_append]
  constructor
  · intro h
    rcases h with h | h
    · rw [build_graph_nodeList_map] at h
      simp only [List.mem_map, List.mem_filter, decide_eq_true_eq] at h
      obtain ⟨n, ⟨hn, hfs⟩, hid⟩ := h
      exact ⟨n, hn, hid, hfs⟩
    · simp only [List.mem_flatMap] at h
      obtain ⟨x, hx, hv⟩ := h
      obtain ⟨e, _, hmk, h1, h2, _⟩ := build_graph_edge_mem db fs acc x hx
      have hv' : v = x.1 ∨ v = x.2.1 := by
        simpa using hv
      rcases hv' with hv | hv
      · rw [hmk] at hv
        simp only at hv
        rw [hv] at *
        simp only [List.mem_map, List.mem_filter, decide_eq_true_eq] at h1
        obtain ⟨n, ⟨hn, hfs⟩, hid⟩ := h1
        exact ⟨n, hn, hid, hfs⟩
      · rw [hmk] at hv
        simp only at hv
        rw [hv] at *
        simp only [List.mem_map, List.mem_filter, decide_eq_true_eq] at h2
        obtain ⟨n, ⟨hn, hfs⟩, hid⟩ := h2
        exact ⟨n, hn, hid, hfs⟩
  · intro ⟨n, hn, hid, hfs⟩
    left
    rw [build_graph_nodeList_map]
    simp only [List.mem_map, List.mem_filter, decide_eq_true_eq]
    exact ⟨n, ⟨hn, hfs⟩, hid⟩

/-- Edge presence between `u` and `v` in terms of the edge list. -/
theorem weight_isSome_iff (G : Graph) (u v : V) :
    (G.weight? u v).isSome = true ↔
      ∃ x ∈ G.edgeList, ((x.1 = u ∧ x.2.1 = v) ∨ (x.1 = v ∧ x.2.1 = u)) := by
  simp only [Graph.weight?, Graph.edgeData?, Option.isSome_map', List.find?_isSome,
    List.mem_reverse, Bool.or_eq_true, Bool.and_eq_true, decide_eq_true_eq]

/-- The filtered edge list is a sublist-membership subset of the
unfiltered one. -/
theorem build_graph_edgeList_subset (db : DB) (fs : List Nat) :
    ∀ x ∈ (build_graph_for_floors db fs true).edgeList,
      x ∈ (build_graph_for_floors db fs false).edgeList := by
  intro x hx
  simp only [build_graph_for_floors, if_true, Bool.false_eq_true, if_false,
    List.mem_map, List.mem_filter] at hx ⊢
  obtain ⟨e, ⟨he, _⟩, hmk⟩ := hx
  exact ⟨e, he, hmk⟩

/-- C3: with the accessibility filter enabled the edge set is a subset of
the unfiltered edge set for the same floor set, and an edge row whose
`EdgeType` is marked inaccessible contributes no entry at all to the
filtered graph. -/
theorem accessible_filter_monotone (db : DB) (fs : List Nat) :
    (∀ u v, ((build_graph_for_floors db fs true).weight? u v).isSome = true →
        ((build_graph_for_floors db fs false).weight? u v).isSome = true) ∧
    (∀ e ∈ db.routing_edges, edgeTypeAccessible db e.edge_type_id = false →
        (e.from_node_id, e.to_node_id,
            (⟨e.distance, e.edge_type_id⟩ : EdgeAttrs)) ∉
          (build_graph_for_floors db fs true).edgeList) := by
  constructor
  · intro u v h
    rw [weight_isSome_iff] at h ⊢
    obtain ⟨x, hx, hm⟩ := h
    exact ⟨x, build_graph_edgeList_subset db fs x hx, hm⟩
  · intro e he hacc hmem
    obtain ⟨e', _, hmk, _, _, hacc'⟩ := build_graph_edge_mem db fs true _ hmem
    have : e'.edge_type_id = e.edge_type_id := by
      have := congrArg (fun y => y.2.2.edge_type_id) hmk
      simpa using this.symm
    have h2 := hacc' rfl
    rw [this, hacc] at h2
    cases h2

/-- Witness for `accessible_filter_monotone` at a concrete database: the
accessible edge 1-2 survives into the unfiltered graph, and the
inaccessible edge row 2-3 is absent from the filtered edge list. -/
theorem accessible_filter_monotone_witness :
    ((build_graph_for_floors dbFix [0] false).weight? 1 2).isSome = true ∧
      ((2 : Nat), (3 : Nat), (⟨2, 60⟩ : EdgeAttrs)) ∉
        (build_graph_for_floors dbFix [0] true).edgeList :=
  ⟨(accessible_filter_monotone dbFix [0]).1 1 2 (by decide),
    by
      have h := (accessible_filter_monotone dbFix [0]).2 ⟨11, 2, 3, 60, 2⟩
        (by decide) (by decide)
      simpa using h⟩

/-! ## Nearest-node resolution -/

/-- The min-picking fold of `find_nearest_node`: its result is the
accumulator or a list element, and its distance is minimal among both. -/
theorem nearestFold_spec (lng lat : ℚ) :
    ∀ (l : List RoutingNode) (acc : Option RoutingNode) (n : RoutingNode),
      l.foldl (fun best m =>
        match best with
        | none => some m
        | some b => if dist2 lng lat m < dist2 lng lat b then some m
            else best) acc = some n →
      (acc = some n ∨ n ∈ l) ∧
      (∀ m ∈ l, dist2 lng lat n ≤ dist2 lng lat m) ∧
      (∀ b, acc = some b → dist2 lng lat n ≤ dist2 lng lat b) := by
  intro l
  induction l with
  | nil =>
    intro acc n h
    simp only [List.foldl_nil] at h
    refine ⟨Or.inl h, by simp, fun b hb => ?_⟩
    rw [h] at hb
    injection hb with hh
    rw [hh]
  | cons x xs ih =>
    intro acc n h
    rw [List.foldl_cons] at h
    cases acc with
    | none =>
      obtain ⟨hmem, hminxs, haccle⟩ := ih (some x) n h
      refine ⟨?_, ?_, by intro b hb; cases hb⟩
      · rcases hmem with hx | hxs
        · exact Or.inr (by injection hx with hh; rw [← hh]; exact List.mem_cons_self x xs)
        · exact Or.inr (List.mem_cons_of_mem x hxs)
      · intro m hm
        rcases List.mem_cons.mp hm with hmx | hmxs
        · rw [hmx]
          exact haccle x rfl
        · exact hminxs m hmxs
    | some b =>
      by_cases hlt : dist2 lng lat x < dist2 lng lat b
      · simp only [if_pos hlt] at h
        obtain ⟨hmem, hminxs, haccle⟩ := ih (some x) n h
        refine ⟨?_, ?_, ?_⟩
        · rcases hmem with hx | hxs
          · exact Or.inr (by injection hx with hh; rw [← hh]; exact List.mem_cons_self x xs)
          · exact Or.inr (List.mem_cons_of_mem x hxs)
        · intro m hm
          rcases List.mem_cons.mp hm with hmx | hmxs
          · rw [hmx]; exact haccle x rfl
          · exact hminxs m hmxs
        · intro c hc
          injection hc with hh
          rw [← hh]
          exact le_trans (haccle x rfl) (le_of_lt hlt)
      · simp only [if_neg hlt] at h
        obtain ⟨hmem, hminxs, haccle⟩ := ih (some b) n h
        refine ⟨?_, ?_, ?_⟩
        · rcases hmem with hb | hxs
          · exact Or.inl hb
          · exact Or.inr (List.mem_cons_of_mem x hxs)
        · intro m hm
          rcases List.mem_cons.mp hm with hmx | hmxs
          · rw [hmx]
            exact le_trans (haccle b rfl) (le_of_not_lt hlt)
          · exact hminxs m hmxs
        · intro c hc
          injection hc with hh
          rw [← hh]
          exact haccle b rfl

/-- The min-picking fold returns a value whenever the list is non-empty. -/
theorem nearestFold_isSome (lng lat : ℚ) :
    ∀ (l : List RoutingNode) (acc : Option RoutingNode),
      (acc.isSome = true ∨ l ≠ []) →
      (l.foldl (fun best m =>
        match best with
        | none => some m
        | some b => if dist2 lng lat m < dist2 lng lat b then some m
            else best) acc).isSome = true := by
  intro l
  induction l with
  | nil =>
    intro acc h
    rcases h with h | h
    · simpa using h
    · exact absurd rfl h
  | cons x xs ih =>
    intro acc _
    rw [List.foldl_cons]
    apply ih
    left
    cases acc with
    | none => rfl
    | some b => by_cases hlt : dist2 lng lat x < dist2 lng lat b <;> simp [hlt]

/-- C4 (amended): `find_nearest_node` returns a routing node of the
requested floor minimizing the distance to the query coordinate (the first
such row in database row order), and returns one whenever the floor has
any routing node; for a fixed database snapshot the result is a fixed
value, but ties are broken by row order, not by lowest node identifier. -/
theorem find_nearest_node_spec (db : DB) (floor_id : Nat) (lat lng : ℚ) :
    (∀ n, find_nearest_node db floor_id lat lng = some n →
        n ∈ db.routing_nodes ∧ n.floor_id = floor_id ∧
        ∀ m ∈ db.routing_nodes, m.floor_id = floor_id →
          dist2 lng lat n ≤ dist2 lng lat m) ∧
    (db.routing_nodes.filter (fun n => n.floor_id = floor_id) ≠ [] →
      (find_nearest_node db floor_id lat lng).isSome = true) := by
  constructor
  · intro n h
    unfold find_nearest_node at h
    obtain ⟨hmem, hmin, _⟩ := nearestFold_spec lng lat _ none n h
    have hnf : n ∈ db.routing_nodes.filter (fun m => m.floor_id = floor_id) := by
      rcases hmem with h0 | h1
      · cases h0
      · exact h1
    rw [List.mem_filter, decide_eq_true_eq] at hnf
    refine ⟨hnf.1, hnf.2, fun m hm hmf => ?_⟩
    exact hmin m (by rw [List.mem_filter, decide_eq_true_eq]; exact ⟨hm, hmf⟩)
  · intro hne
    unfold find_nearest_node
    exact nearestFold_isSome lng lat _ none (Or.inr hne)

/-- Witness for `find_nearest_node_spec` at a concrete database. -/
theorem find_nearest_node_spec_witness :
    ((⟨1, 0, 0, 0, 0⟩ : RoutingNode) ∈ dbFix.routing_nodes ∧
      (⟨1, 0, 0, 0, 0⟩ : RoutingNode).floor_id = 0) ∧
    (find_nearest_node dbFix 0 0 0).isSome = true := by
  have h := find_nearest_node_spec dbFix 0 0 0
  have h1 := h.1 ⟨1, 0, 0, 0, 0⟩ (by norm_num [find_nearest_node, dbFix, dist2])
  exact ⟨⟨h1.1, h1.2.1⟩, h.2 (by decide)⟩

/-- Counterexample to C4 as stated: on a floor with two equidistant nodes
whose row order puts the higher id first, `find_nearest_node` returns the
higher id, not the lowest node identifier. -/
theorem find_nearest_node_tie_counterexample :
    find_nearest_node dbTie 0 0 0 = some ⟨2, 0, 0, 1, 0⟩ ∧
    (⟨1, 0, 0, 0, 1⟩ : RoutingNode) ∈ dbTie.routing_nodes ∧
    (⟨1, 0, 0, 0, 1⟩ : RoutingNode).floor_id = 0 ∧
    dist2 0 0 ⟨1, 0, 0, 0, 1⟩ = dist2 0 0 ⟨2, 0, 0, 1, 0⟩ ∧
    (1 : Nat) < 2 := by
  refine ⟨?_, by decide, by decide, by norm_num [dist2], by decide⟩
  norm_num [find_nearest_node, dbTie, dist2]

/-! ## Path decomposition -/

/-- When every path vertex resolves, `annPath` returns the annotated path:
same vertices, each paired with its attributes. -/
theorem annPath_isSome (G : Graph) :
    ∀ path : List V, (∀ v ∈ path, (G.nodeAttr? v).isSome = true) →
      ∃ l, annPath G path = some l ∧ l.map Prod.fst = path ∧
        ∀ va ∈ l, G.nodeAttr? va.1 = some va.2 := by
  intro path
  induction path with
  | nil => intro _; exact ⟨[], rfl, rfl, by simp⟩
  | cons v rest ih =>
    intro h
    have hv := h v (List.mem_cons_self v rest)
    obtain ⟨a, ha⟩ := Option.isSome_iff_exists.mp hv
    obtain ⟨l, hl, hmap, hattr⟩ := ih (fun w hw => h w (List.mem_cons_of_mem v hw))
    refine ⟨(v, a) :: l, ?_, by simp [hmap], ?_⟩
    · simp [annPath, ha, hl]
    · intro va hva
      rcases List.mem_cons.mp hva with h0 | h1
      · rw [h0]; exact ha
      · exact hattr va h1

/-- Looking up the floor just inserted by `addCoord`. -/
theorem addCoord_lookup_self (acc : List (Nat × List (ℚ × ℚ))) (f : Nat) (c : ℚ × ℚ) :
    (addCoord acc f c).lookup f = some ((acc.lookup f).getD [] ++ [c]) := by
  induction acc with
  | nil => simp [addCoord]
  | cons p rest ih =>
    obtain ⟨g, cs⟩ := p
    by_cases hg : g = f
    · subst hg
      simp [addCoord]
    · simp [addCoord, hg, ih, List.lookup_cons, beq_false_of_ne (Ne.symm hg)]

/-- `addCoord` leaves other floors' groups unchanged. -/
theorem addCoord_lookup_ne (acc : List (Nat × List (ℚ × ℚ))) (f g : Nat) (c : ℚ × ℚ)
    (hne : g ≠ f) : (addCoord acc f c).lookup g = acc.lookup g := by
  induction acc with
  | nil => simp [addCoord, List.lookup_cons, beq_false_of_ne hne]
  | cons p rest ih =>
    obtain ⟨k, cs⟩ := p
    by_cases hk : k = f
    · subst hk
      simp [addCoord, List.lookup_cons, beq_false_of_ne hne]
    · by_cases hkg : k = g
      · subst hkg
        simp [addCoord, hk, List.lookup_cons]
      · simp [addCoord, hk, List.lookup_cons, beq_false_of_ne (Ne.symm hkg), ih]

/-- `addCoord` extends the key list with `f` exactly when `f` is new. -/
theorem addCoord_keys (acc : List (Nat × List (ℚ × ℚ))) (f : Nat) (c : ℚ × ℚ) :
    (addCoord acc f c).map Prod.fst =
      if f ∈ acc.map Prod.fst then acc.map Prod.fst
      else acc.map Prod.fst ++ [f] := by
  induction acc with
  | nil => simp [addCoord]
  | cons p rest ih =>
    obtain ⟨k, cs⟩ := p
    by_cases hk : k = f
    · subst hk
      simp [addCoord]
    · simp only [addCoord, if_neg hk, List.map_cons, ih]
      by_cases hmem : f ∈ rest.map Prod.fst
      · simp [hmem, Ne.symm hk]
      · simp [hmem, Ne.symm hk]

/-- Group lookup after folding `addCoord` over an annotated path. -/
theorem foldl_addCoord_lookup (f : Nat) :
    ∀ (l : List (V × NodeAttrs)) (acc : List (Nat × List (ℚ × ℚ))),
      (l.foldl (fun acc va =>
          addCoord acc va.2.floor_id (va.2.lng, va.2.lat)) acc).lookup f =
        match acc.lookup f with
        | some cs0 => some (cs0 ++ annCoords l f)
        | none =>
          if annCoords l f = [] then none else some (annCoords l f) := by
  intro l
  induction l with
  | nil =>
    intro acc
    cases h : acc.lookup f with
    | none => simp [annCoords, h]
    | some cs0 => simp [annCoords, h]
  | cons va l' ih =>
    intro acc
    rw [List.foldl_cons, ih]
    by_cases hf : va.2.floor_id = f
    · rw [hf, addCoord_lookup_self]
      have hann : annCoords (va :: l') f =
          (va.2.lng, va.2.lat) :: annCoords l' f := by
        simp [annCoords, List.filterMap_cons, hf]
      cases h : acc.lookup f with
      | none => simp [h, hann]
      | some cs0 => simp [h, hann]
    · rw [addCoord_lookup_ne _ _ _ _ (fun hfe => hf hfe.symm)]
      have hann : annCoords (va :: l') f = annCoords l' f := by
        simp [annCoords, List.filterMap_cons, hf]
      rw [hann]

/-- Folding `addCoord` preserves distinctness of the group keys. -/
theorem foldl_addCoord_keys_nodup :
    ∀ (l : List (V × NodeAttrs)) (acc : List (Nat × List (ℚ × ℚ))),
      (acc.map Prod.fst).Nodup →
      ((l.foldl (fun acc va =>
          addCoord acc va.2.floor_id (va.2.lng, va.2.lat)) acc).map
        Prod.fst).Nodup := by
  intro l
  induction l with
  | nil => intro acc h; simpa using h
  | cons va l' ih =>
    intro acc h
    rw [List.foldl_cons]
    apply ih
    rw [addCoord_keys]
    by_cases hm : va.2.floor_id ∈ acc.map Prod.fst
    · simpa [hm] using h
    · simp only [hm, if_false]
      simp [List.nodup_append, h, hm]

/-- On an annotated path, the claimed per-floor coordinate lists coincide
with the annotation-level ones. -/
theorem floorCoords_annPath (G : Graph) (f : Nat) :
    ∀ l : List (V × NodeAttrs),
      (∀ va ∈ l, G.nodeAttr? va.1 = some va.2) →
      floorCoords G (l.map Prod.fst) f = annCoords l f := by
  intro l
  induction l with
  | nil => intro _; simp [floorCoords, annCoords]
  | cons va l' ih =>
    intro h
    have hva := h va (List.mem_cons_self va l')
    have hrest := ih (fun w hw => h w (List.mem_cons_of_mem va hw))
    simp only [floorCoords, annCoords, List.map_cons, List.filterMap_cons,
      hva, Option.some_bind] at hrest ⊢
    cases hif : (if va.2.floor_id = f then some (va.2.lng, va.2.lat) else none) with
    | none => simpa [hif] using hrest
    | some c => simpa [hif] using hrest

/-- C5: the Path Decomposer groups path coordinates by first-seen floor id:
each group key occurs once, and the group of floor `f` is exactly the
coordinates of the path vertices on floor `f`, in path order — so a floor
revisited non-adjacently still contributes to one merged list. -/
theorem group_path_by_floors_spec (G : Graph) (path : List V)
    (h : ∀ v ∈ path, (G.nodeAttr? v).isSome = true) :
    ∃ gs, groupPathByFloors G path = some gs ∧
      (gs.map Prod.fst).Nodup ∧
      ∀ f, gs.lookup f =
        if floorCoords G path f = [] then none
        else some (floorCoords G path f) := by
  obtain ⟨l, hl, hmap, hattr⟩ := annPath_isSome G path h
  refine ⟨l.foldl (fun acc va =>
      addCoord acc va.2.floor_id (va.2.lng, va.2.lat)) [], ?_, ?_, ?_⟩
  · simp [groupPathByFloors, hl]
  · exact foldl_addCoord_keys_nodup l [] (by simp)
  · intro f
    rw [foldl_addCoord_lookup]
    have hfc : floorCoords G path f = annCoords l f := by
      rw [← hmap]
      exact floorCoords_annPath G f l hattr
    rw [hfc]
    rfl

/-- Witness for `group_path_by_floors_spec`: a two-floor path on the
fixture graph decomposes successfully. -/
theorem group_path_by_floors_spec_witness :
    (groupPathByFloors gFix [7, 8]).isSome = true := by
  obtain ⟨gs, hgs, _, _⟩ := group_path_by_floors_spec gFix [7, 8] (by decide)
  rw [hgs]
  rfl

/-! ## Instruction generation -/

/-- The rendered step list of a non-empty annotated path ends with the
arrival instruction. -/
theorem genStepsAbs_last (G : Graph) (first : V × NodeAttrs)
    (rest : List (V × NodeAttrs)) :
    ((genStepsAbs G (first :: rest)).map render).getLast? =
      some "You have arrived at your destination" := by
  simp only [genStepsAbs, List.map_cons, List.map_append, List.map_nil, render]
  rw [← List.cons_append]
  exact List.getLast?_concat _

/-- C7: `generate_steps` returns exactly the single instruction
"You have arrived" on the empty path, and on every non-empty path (whose
vertices are nodes of the graph) its last instruction is
"You have arrived at your destination". -/
theorem generate_steps_arrival (G : Graph) (path : List V)
    (a b c d : ℚ) :
    (path = [] → generate_steps G path a b c d = some ["You have arrived"]) ∧
    (path ≠ [] → (∀ v ∈ path, (G.nodeAttr? v).isSome = true) →
      ∃ l, generate_steps G path a b c d = some l ∧
        l.getLast? = some "You have arrived at your destination") := by
  constructor
  · intro h
    subst h
    rfl
  · intro hne h
    obtain ⟨l, hl, hmap, _⟩ := annPath_isSome G path h
    have hlne : l ≠ [] := by
      intro h0
      rw [h0] at hmap
      exact hne hmap.symm
    obtain ⟨first, rest, hfr⟩ := List.exists_cons_of_ne_nil hlne
    refine ⟨(genStepsAbs G l).map render, ?_, ?_⟩
    · simp [generate_steps, hl]
    · rw [hfr]
      exact genStepsAbs_last G first rest

/-- Witness for both branches of `generate_steps_arrival`. -/
theorem generate_steps_arrival_witness :
    generate_steps gFix [] 0 0 0 0 = some ["You have arrived"] ∧
      (generate_steps gFix [1, 2] 0 0 0 0).isSome = true :=
  ⟨(generate_steps_arrival gFix [] 0 0 0 0).1 rfl, by
    obtain ⟨l, hl, _⟩ :=
      (generate_steps_arrival gFix [1, 2] 0 0 0 0).2 (by decide) (by decide)
    rw [hl]
    rfl⟩

/-! ## Path solver: source equals target -/

/-- C9: invoked with source equal to target (a vertex of the graph), the
solver returns the single-vertex path and total distance 0. -/
theorem shortest_path_self (G : Graph) (s : V) (h : G.hasNode s) :
    shortest_path G s s = some [s] ∧
      shortest_path_length G s s = some 0 := by
  have hall : allSimplePaths G s s = [[s]] := by
    unfold allSimplePaths dfsPaths
    simp
  constructor
  · rw [shortest_path, hall]
    rfl
  · rw [shortest_path_length, hall]
    simp [wsum]

/-- Witness for `shortest_path_self` on the fixture graph. -/
theorem shortest_path_self_witness :
    shortest_path gFix 1 1 = some [1] ∧
      shortest_path_length gFix 1 1 = some 0 :=
  shortest_path_self gFix 1 (by decide)

/-! ## Distance markers -/

/-- Along an adjacency chain, every consecutive vertex pair has an edge. -/
theorem isChain_weight_isSome (G : Graph) :
    ∀ path : List V, isChain G path = true →
      ∀ j, j + 1 < path.length →
        (G.weight? (path.getD j 0) (path.getD (j + 1) 0)).isSome = true := by
  intro path
  induction path with
  | nil =>
    intro _ j hj
    simp at hj
  | cons u rest ih =>
    intro hch j hj
    cases rest with
    | nil => simp at hj
    | cons v rest' =>
      have hsplit : G.adj u v = true ∧ isChain G (v :: rest') = true := by
        have : isChain G (u :: v :: rest') =
            (G.adj u v && isChain G (v :: rest')) := rfl
        rw [this] at hch
        exact Bool.and_eq_true_iff.mp hch
      cases j with
      | zero =>
        simpa [Graph.adj] using hsplit.1
      | succ j' =>
        have hj' : j' + 1 < (v :: rest').length := by
          simpa [Nat.succ_lt_succ_iff] using hj
        simpa using ih hsplit.2 j' hj'

/-- `markersOf` distributes over list append. -/
theorem markersOf_append (l₁ l₂ : List Step) :
    markersOf (l₁ ++ l₂) = markersOf l₁ ++ markersOf l₂ := by
  simp [markersOf]

/-- The markers of the instruction loop are exactly its `expLoop`
contributions: floor-change instructions carry no marker. -/
theorem markersOf_stepsLoop (G : Graph) (n : Nat) :
    ∀ (l : List (V × NodeAttrs)) (i : Nat) (cf : Option Nat)
      (prev : Option V),
      markersOf (stepsLoop G n l i cf prev) = expLoop G n l i prev := by
  intro l
  induction l with
  | nil =>
    intro i cf prev
    simp [stepsLoop, expLoop, markersOf]
  | cons va rest ih =>
    intro i cf prev
    obtain ⟨v, a⟩ := va
    show markersOf (_ ++ _ ++ _) = _
    rw [markersOf_append, markersOf_append, ih]
    have hcf : markersOf (match cf with
        | none => []
        | some cfv =>
          if cfv ≠ a.floor_id then [Step.changeToFloor a.floor_id]
          else []) = [] := by
      cases cf with
      | none => rfl
      | some cfv =>
        by_cases hne : cfv ≠ a.floor_id
        · simp [hne, markersOf]
        · simp [hne, markersOf]
    rw [hcf]
    have hmk : markersOf (if 0 < i ∧ i % 5 = 0 ∧ i < n - 1 then
        match prev with
        | some p =>
          match G.edgeData? p v with
          | some ea => [Step.continueMarker (pyRound ea.weight 1)]
          | none => []
        | none => []
      else []) = (if 0 < i ∧ i % 5 = 0 ∧ i < n - 1 then
        match prev with
        | some p =>
          match G.edgeData? p v with
          | some ea => [pyRound ea.weight 1]
          | none => []
        | none => []
      else []) := by
      by_cases hc : 0 < i ∧ i % 5 = 0 ∧ i < n - 1
      · simp only [if_pos hc]
        cases prev with
        | none => rfl
        | some p =>
          cases hed : G.edgeData? p v with
          | none => simp [hed, markersOf]
          | some ea => simp [hed, markersOf]
      · simp [hc, markersOf]
    rw [hmk]
    rfl

/-- If dropping `i` elements exposes `x`, then `getD i` is `x`. -/
theorem getD_of_drop_cons {α : Type} (d : α) :
    ∀ (l : List α) (i : Nat) (x : α) (xs : List α),
      l.drop i = x :: xs → l.getD i d = x := by
  intro l
  induction l with
  | nil =>
    intro i x xs h
    rw [List.drop_nil] at h
    cases h
  | cons y ys ih =>
    intro i x xs h
    cases i with
    | zero =>
      rw [List.drop_zero] at h
      cases h
      rfl
    | succ i' =>
      rw [List.drop_succ_cons] at h
      simpa using ih i' x xs h

/-- The marker loop emits exactly the claimed markers: one at every
position that is a positive multiple of 5 and not the last index, carrying
the rounded weight of the edge from the previous path vertex. -/
theorem expLoop_expected (G : Graph) (ann : List (V × NodeAttrs))
    (path : List V) (hmap : ann.map Prod.fst = path)
    (hch : isChain G path = true) :
    ∀ (tail : List (V × NodeAttrs)) (i : Nat) (prev : Option V),
      tail = ann.drop i →
      (i = 0 → prev = none) →
      (∀ k, i = k + 1 → prev = some (path.getD k 0)) →
      expLoop G path.length tail i prev =
        ((List.range' i tail.length).filter
            (fun j => decide (0 < j ∧ j % 5 = 0 ∧ j < path.length - 1))).map
          (fun j => pyRound
            ((G.weight? (path.getD (j - 1) 0) (path.getD j 0)).getD 0) 1) := by
  intro tail
  induction tail with
  | nil =>
    intro i prev _ _ _
    simp [expLoop]
  | cons va t' ih =>
    intro i prev hdrop h0 hsucc
    obtain ⟨v, a⟩ := va
    have ht' : t' = ann.drop (i + 1) := by
      have hdd : (ann.drop i).drop 1 = ann.drop (i + 1) := List.drop_drop 1 i ann
      rw [← hdrop] at hdd
      exact hdd
    have hv : path.getD i 0 = v := by
      have hmdrop : path.drop i = v :: t'.map Prod.fst := by
        rw [← hmap, ← List.map_drop Prod.fst ann i, ← hdrop]
        rfl
      exact getD_of_drop_cons 0 path i v (t'.map Prod.fst) hmdrop
    have hrec : expLoop G path.length t' (i + 1) (some v) =
        ((List.range' (i + 1) t'.length).filter
            (fun j => decide (0 < j ∧ j % 5 = 0 ∧ j < path.length - 1))).map
          (fun j => pyRound
            ((G.weight? (path.getD (j - 1) 0) (path.getD j 0)).getD 0) 1) := by
      apply ih (i + 1) (some v) ht' (by omega)
      intro k hk
      have : k = i := by omega
      rw [this, hv]
    show (if 0 < i ∧ i % 5 = 0 ∧ i < path.length - 1 then _ else _) ++ _ = _
    rw [List.length_cons, List.range'_succ i t'.length 1, List.filter_cons]
    by_cases hc : 0 < i ∧ i % 5 = 0 ∧ i < path.length - 1
    · obtain ⟨k, hk⟩ : ∃ k, i = k + 1 := ⟨i - 1, by omega⟩
      have hprev : prev = some (path.getD k 0) := hsucc k hk
      have hlt : k + 1 < path.length := by omega
      have hw : (G.weight? (path.getD k 0) (path.getD (k + 1) 0)).isSome =
          true := isChain_weight_isSome G path hch k hlt
      have hwv : (G.weight? (path.getD (i - 1) 0) (path.getD i 0)).isSome =
          true := by
        have hki : i - 1 = k := by omega
        rw [hki, hk]
        exact hw
      obtain ⟨ea, hea⟩ := Option.isSome_iff_exists.mp (by
        simpa [Graph.weight?, Option.isSome_map'] using hwv :
          ((G.edgeData? (path.getD (i - 1) 0) (path.getD i 0)).isSome = true))
      have hip : path.getD (i - 1) 0 = path.getD k 0 := by
        rw [show i - 1 = k by omega]
      rw [if_pos hc, hprev, if_pos (by simpa using hc), List.map_cons, hrec,
        hip, hv]
      have hea' : G.edgeData? (path.getD k 0) v = some ea := by
        rw [← hip, ← hv]
        exact hea
      have hea2 : G.edgeData? (path[k]?.getD 0) v = some ea := by
        simpa using hea'
      simp [Graph.weight?, hea2]
    · rw [if_neg hc, if_neg (by simpa using hc), hrec]
      rfl

/-- C8: on a path whose consecutive vertices are adjacent in the graph,
`generate_steps` emits distance markers exactly at every fifth vertex
(excluding the first and the last), each carrying the weight of the edge
just traversed into that vertex, rounded to one decimal place. -/
theorem generate_steps_distance_markers (G : Graph) (path : List V)
    (a b c d : ℚ)
    (hmem : ∀ v ∈ path, (G.nodeAttr? v).isSome = true)
    (hch : isChain G path = true) :
    ∃ ann, annPath G path = some ann ∧
      generate_steps G path a b c d = some ((genStepsAbs G ann).map render) ∧
      markersOf (genStepsAbs G ann) = expectedMarkers G path := by
  obtain ⟨ann, hl, hmap, _⟩ := annPath_isSome G path hmem
  refine ⟨ann, hl, by simp [generate_steps, hl], ?_⟩
  have hlen : ann.length = path.length := by
    rw [← hmap, List.length_map]
  cases ann with
  | nil =>
    have hpath : path = [] := by
      rw [← hmap]
      rfl
    subst hpath
    rfl
  | cons first rest =>
    have hmk : markersOf (genStepsAbs G (first :: rest)) =
        markersOf (stepsLoop G (first :: rest).length (first :: rest) 0
          none none) := by
      simp only [genStepsAbs]
      by_cases hcnd : first.2.floor_id ≠
          ((first :: rest).getLast (List.cons_ne_nil first rest)).2.floor_id
      · simp [hcnd, markersOf, List.filterMap_cons, List.filterMap_append]
      · simp [hcnd, markersOf, List.filterMap_cons, List.filterMap_append]
    rw [hmk, markersOf_stepsLoop, hlen]
    have hexp := expLoop_expected G (first :: rest) path hmap hch
      (first :: rest) 0 none rfl (fun _ => rfl)
      (fun k hk => absurd hk.symm (Nat.succ_ne_zero k))
    rw [hexp]
    simp only [expectedMarkers, markerPositions, List.range_eq_range']
    rw [hlen]

/-- Witness for `generate_steps_distance_markers` on the fixture chain. -/
theorem generate_steps_distance_markers_witness :
    (generate_steps gFix [1, 2, 3, 4, 5, 6, 7, 8] 0 0 0 0).isSome = true := by
  obtain ⟨ann, h1, h2, h3⟩ := generate_steps_distance_markers gFix
    [1, 2, 3, 4, 5, 6, 7, 8] 0 0 0 0 (by decide) (by decide)
  rw [h2]
  rfl

/-! ## Orchestrator error handling -/

/-- A floor with no routing nodes yields no nearest node. -/
theorem find_nearest_node_empty (db : DB) (fid : Nat) (lat lng : ℚ)
    (h : db.routing_nodes.filter (fun n => n.floor_id = fid) = []) :
    find_nearest_node db fid lat lng = none := by
  unfold find_nearest_node
  rw [h]
  rfl

/-- C2: the three expected failure conditions of `calculate_route` each
produce a recoverable `ValueError` that the endpoint maps to an HTTP 404;
none escapes as an unhandled failure. -/
theorem calculate_route_errors (db : DB) (ffid : Nat) (flat flng : ℚ)
    (pid : Nat) (acc : Bool) :
    (db.pois.find? (fun p => p.id = pid) = none →
      calculate_route db ffid flat flng pid acc =
        .error (.valueError "POI not found") ∧
      route_endpoint db ffid flat flng pid acc =
        ⟨404, "Destination POI not found"⟩) ∧
    (∀ poi, db.pois.find? (fun p => p.id = pid) = some poi →
      (db.routing_nodes.filter (fun n => n.floor_id = ffid) = [] ∨
        db.routing_nodes.filter (fun n => n.floor_id = poi.floor_id) = []) →
      calculate_route db ffid flat flng pid acc =
        .error (.valueError
          "Could not find routing nodes near start or destination") ∧
      route_endpoint db ffid flat flng pid acc =
        ⟨404, "Could not find routing nodes near start or destination"⟩) ∧
    (∀ poi sn en, db.pois.find? (fun p => p.id = pid) = some poi →
      find_nearest_node db ffid flat flng = some sn →
      find_nearest_node db poi.floor_id poi.lat poi.lng = some en →
      has_path (build_graph_for_floors db
          (if ffid = poi.floor_id then [ffid] else [ffid, poi.floor_id])
          acc) sn.id en.id = false →
      calculate_route db ffid flat flng pid acc =
        .error (.valueError "No route found between start and destination") ∧
      route_endpoint db ffid flat flng pid acc =
        ⟨404, "No route found between start and destination"⟩) := by
  refine ⟨?_, ?_, ?_⟩
  · intro h
    have hc : calculate_route db ffid flat flng pid acc =
        .error (.valueError "POI not found") := by
      unfold calculate_route
      simp only [h]
    refine ⟨hc, ?_⟩
    unfold route_endpoint
    simp only [h]
  · intro poi hpoi hfl
    have hc : calculate_route db ffid flat flng pid acc =
        .error (.valueError
          "Could not find routing nodes near start or destination") := by
      unfold calculate_route
      simp only [hpoi]
      rcases hfl with h1 | h1
      · simp only [find_nearest_node_empty db ffid flat flng h1]
      · simp only [find_nearest_node_empty db poi.floor_id poi.lat poi.lng h1]
        cases find_nearest_node db ffid flat flng with
        | none => rfl
        | some s => rfl
    refine ⟨hc, ?_⟩
    unfold route_endpoint
    simp only [hpoi, hc]
  · intro poi sn en hpoi hs he hhp
    have hc : calculate_route db ffid flat flng pid acc =
        .error (.valueError
          "No route found between start and destination") := by
      unfold calculate_route
      simp only [hpoi, hs, he, hhp]
      rfl
    refine ⟨hc, ?_⟩
    unfold route_endpoint
    simp only [hpoi, hc]

/-- Witness for `calculate_route_errors`: all three failure conditions
exercised on the fixture database (missing POI id 999; origin floor 7 with
no routing nodes; POI 101 on floor 1 unreachable from floor 0 under the
accessibility filter). -/
theorem calculate_route_errors_witness :
    (calculate_route dbFix 0 0 0 999 true =
        .error (.valueError "POI not found") ∧
      route_endpoint dbFix 0 0 0 999 true =
        ⟨404, "Destination POI not found"⟩) ∧
    (calculate_route dbFix 7 0 0 100 true =
        .error (.valueError
          "Could not find routing nodes near start or destination") ∧
      route_endpoint dbFix 7 0 0 100 true =
        ⟨404, "Could not find routing nodes near start or destination"⟩) ∧
    (calculate_route dbFix 0 0 0 101 true =
        .error (.valueError "No route found between start and destination") ∧
      route_endpoint dbFix 0 0 0 101 true =
        ⟨404, "No route found between start and destination"⟩) := by
  refine ⟨(calculate_route_errors dbFix 0 0 0 999 true).1 (by decide),
    (calculate_route_errors dbFix 7 0 0 100 true).2.1 ⟨100, 0, 2, 0⟩
      (by decide) (Or.inl (by decide)),
    (calculate_route_errors dbFix 0 0 0 101 true).2.2 ⟨101, 1, 0, 0⟩
      ⟨1, 0, 0, 0, 0⟩ ⟨4, 1, 0, 0, 0⟩ (by decide) ?_ ?_ ?_⟩
  · norm_num [find_nearest_node, dbFix, dist2]
  · rfl
  · decide

/-! ## Path solver: optimality -/

/-- Any defined edge weight comes from some edge-list entry. -/
theorem weight?_mem (G : Graph) (u v : V) (w : ℚ)
    (h : G.weight? u v = some w) :
    ∃ x ∈ G.edgeList, x.2.2.weight = w := by
  simp only [Graph.weight?, Graph.edgeData?, Option.map_map,
    Option.map_eq_some'] at h
  obtain ⟨e, he, hw⟩ := h
  exact ⟨e, List.mem_reverse.mp (List.mem_of_find?_eq_some he), hw⟩

/-- Walk weights are nonnegative when all edge weights are. -/
theorem wsum_nonneg (G : Graph)
    (hw : ∀ x ∈ G.edgeList, 0 ≤ x.2.2.weight) :
    ∀ p : List V, 0 ≤ wsum G p := by
  intro p
  induction p with
  | nil => simp [wsum]
  | cons u rest ih =>
    cases rest with
    | nil => simp [wsum]
    | cons v rest' =>
      show 0 ≤ (G.weight? u v).getD 0 + wsum G (v :: rest')
      have h1 : 0 ≤ (G.weight? u v).getD 0 := by
        cases huv : G.weight? u v with
        | none => simp
        | some w =>
          obtain ⟨x, hx, hxw⟩ := weight?_mem G u v w huv
          simpa [hxw] using hw x hx
      exact add_nonneg h1 ih

/-- Splitting a walk weight at an interior vertex. -/
theorem wsum_append (G : Graph) :
    ∀ (a : List V) (x : V) (r : List V),
      wsum G (a ++ x :: r) = wsum G (a ++ [x]) + wsum G (x :: r) := by
  intro a
  induction a with
  | nil =>
    intro x r
    simp [wsum]
  | cons u a' ih =>
    intro x r
    cases a' with
    | nil =>
      show (G.weight? u x).getD 0 + wsum G (x :: r) = _
      simp [wsum]
    | cons y a'' =>
      have h1 : wsum G ((u :: y :: a'') ++ x :: r) =
          (G.weight? u y).getD 0 + wsum G ((y :: a'') ++ x :: r) := rfl
      have h2 : wsum G ((u :: y :: a'') ++ [x]) =
          (G.weight? u y).getD 0 + wsum G ((y :: a'') ++ [x]) := rfl
      rw [h1, h2, ih x r, add_assoc]

/-- Splitting an adjacency chain at an interior vertex. -/
theorem isChain_append (G : Graph) :
    ∀ (a : List V) (x : V) (r : List V),
      isChain G (a ++ x :: r) =
        (isChain G (a ++ [x]) && isChain G (x :: r)) := by
  intro a
  induction a with
  | nil =>
    intro x r
    show isChain G (x :: r) = (isChain G [x] && isChain G (x :: r))
    simp [isChain]
  | cons u a' ih =>
    intro x r
    cases a' with
    | nil =>
      show (G.adj u x && isChain G (x :: r)) = _
      have h2 : isChain G ([u] ++ [x]) = (G.adj u x && isChain G [x]) := rfl
      rw [h2]
      simp [isChain, Bool.and_assoc]
    | cons y a'' =>
      have h1 : isChain G ((u :: y :: a'') ++ x :: r) =
          (G.adj u y && isChain G ((y :: a'') ++ x :: r)) := rfl
      have h2 : isChain G ((u :: y :: a'') ++ [x]) =
          (G.adj u y && isChain G ((y :: a'') ++ [x])) := rfl
      rw [h1, h2, ih x r, Bool.and_assoc]

/-- The last element of a list ending in `x :: r` ignores the prefix. -/
theorem getLast?_append_cons {α : Type} :
    ∀ (l : List α) (x : α) (r : List α),
      (l ++ x :: r).getLast? = (x :: r).getLast? := by
  intro l
  induction l with
  | nil => intro x r; rfl
  | cons u l' ih =>
    intro x r
    cases l' with
    | nil =>
      show (u :: x :: r).getLast? = (x :: r).getLast?
      rw [List.getLast?_cons_cons]
    | cons w l'' =>
      show (u :: ((w :: l'') ++ x :: r)).getLast? = _
      have h1 : (u :: ((w :: l'') ++ x :: r)).getLast? =
          (w :: (l'' ++ x :: r)).getLast? := List.getLast?_cons_cons
      rw [h1]
      exact ih x r

/-- A list that is not duplicate-free contains a repeated element with an
explicit split. -/
theorem exists_dup_split {α : Type} [DecidableEq α] :
    ∀ p : List α, ¬p.Nodup → ∃ a x b c, p = a ++ x :: (b ++ x :: c) := by
  intro p
  induction p with
  | nil => intro h; exact absurd List.nodup_nil h
  | cons u rest ih =>
    intro h
    by_cases hu : u ∈ rest
    · obtain ⟨b, c, hbc⟩ := List.append_of_mem hu
      exact ⟨[], u, b, c, by rw [hbc]; rfl⟩
    · have hrest : ¬rest.Nodup := fun hn =>
        h (List.nodup_cons.mpr ⟨hu, hn⟩)
      obtain ⟨a, x, b, c, habc⟩ := ih hrest
      exact ⟨u :: a, x, b, c, by rw [habc]; rfl⟩

/-- Cycle removal: every adjacency chain has a duplicate-free chain with
the same endpoints and no larger weight (weights being nonnegative). -/
theorem chain_toNodup (G : Graph)
    (hw : ∀ x ∈ G.edgeList, 0 ≤ x.2.2.weight) :
    ∀ (n : Nat) (p : List V), p.length ≤ n → isChain G p = true →
      ∃ q, isChain G q = true ∧ q.Nodup ∧ q.head? = p.head? ∧
        q.getLast? = p.getLast? ∧ wsum G q ≤ wsum G p := by
  intro n
  induction n with
  | zero =>
    intro p hlen _
    have hp : p = [] := List.length_eq_zero.mp (Nat.le_zero.mp hlen)
    subst hp
    exact ⟨[], rfl, List.nodup_nil, rfl, rfl, le_refl _⟩
  | succ n ih =>
    intro p hlen hch
    by_cases hnd : p.Nodup
    · exact ⟨p, hch, hnd, rfl, rfl, le_refl _⟩
    · obtain ⟨a, x, b, c, habc⟩ := exists_dup_split p hnd
      subst habc
      have hch1 : isChain G (a ++ x :: c) = true := by
        rw [isChain_append] at hch ⊢
        have hx : isChain G (x :: (b ++ x :: c)) = true :=
          (Bool.and_eq_true_iff.mp hch).2
        have h2 : isChain G ((x :: b) ++ x :: c) = true := hx
        rw [isChain_append] at h2
        exact Bool.and_eq_true_iff.mpr
          ⟨(Bool.and_eq_true_iff.mp hch).1, (Bool.and_eq_true_iff.mp h2).2⟩
      have hws : wsum G (a ++ x :: c) ≤ wsum G (a ++ x :: (b ++ x :: c)) := by
        rw [wsum_append G a x c, wsum_append G a x (b ++ x :: c)]
        have hsplit2 : wsum G (x :: (b ++ x :: c)) =
            wsum G ((x :: b) ++ [x]) + wsum G (x :: c) :=
          wsum_append G (x :: b) x c
        rw [hsplit2]
        have h0 : 0 ≤ wsum G ((x :: b) ++ [x]) := wsum_nonneg G hw _
        linarith
      have hh : (a ++ x :: c).head? = (a ++ x :: (b ++ x :: c)).head? := by
        cases a <;> rfl
      have hl : (a ++ x :: c).getLast? =
          (a ++ x :: (b ++ x :: c)).getLast? := by
        rw [getLast?_append_cons a x c, getLast?_append_cons a x (b ++ x :: c)]
        have h3 : (x :: (b ++ x :: c)).getLast? =
            ((x :: b) ++ x :: c).getLast? := rfl
        rw [h3, getLast?_append_cons (x :: b) x c]
      have hlen2 : (a ++ x :: c).length ≤ n := by
        simp only [List.length_append, List.length_cons] at hlen ⊢
        omega
      obtain ⟨q, hq1, hq2, hq3, hq4, hq5⟩ := ih (a ++ x :: c) hlen2 hch1
      exact ⟨q, hq1, hq2, hq3.trans hh, hq4.trans hl, hq5.trans hws⟩

/-- Adjacency endpoints are vertices of the graph. -/
theorem adj_mem_nodeIds (G : Graph) (u v : V) (h : G.adj u v = true) :
    v ∈ G.nodeIds := by
  simp only [Graph.adj, Graph.weight?, Graph.edgeData?, Option.isSome_map',
    List.find?_isSome] at h
  obtain ⟨e, he, hpred⟩ := h
  have hemem : e ∈ G.edgeList := List.mem_reverse.mp he
  have hv : v = e.1 ∨ v = e.2.1 := by
    rcases Bool.or_eq_true_iff.mp hpred with h1 | h1
    · right
      have := (Bool.and_eq_true_iff.mp h1).2
      simp only [decide_eq_true_eq] at this
      exact this.symm
    · left
      have := (Bool.and_eq_true_iff.mp h1).1
      simp only [decide_eq_true_eq] at this
      exact this.symm
  unfold Graph.nodeIds
  rw [List.mem_dedup, List.mem_append]
  right
  rw [List.mem_flatMap]
  refine ⟨e, hemem, ?_⟩
  rcases hv with h1 | h1 <;> simp [h1]

/-- Every list produced by the DFS enumeration is a walk from `u` to `t`. -/
theorem dfsPaths_sound (G : Graph) :
    ∀ (fuel : Nat) (visited : List V) (u t : V) (p : List V),
      p ∈ dfsPaths G fuel visited u t →
      p.head? = some u ∧ p.getLast? = some t ∧ isChain G p = true := by
  intro fuel
  induction fuel with
  | zero =>
    intro visited u t p hp
    simp [dfsPaths] at hp
  | succ n ih =>
    intro visited u t p hp
    by_cases hut : u = t
    · subst hut
      simp [dfsPaths] at hp
      subst hp
      exact ⟨rfl, rfl, rfl⟩
    · simp only [dfsPaths, if_neg hut, List.mem_flatMap, List.mem_map,
        List.mem_filter] at hp
      obtain ⟨v, ⟨hvmem, hvcond⟩, p', hp', hpp⟩ := hp
      obtain ⟨h1, h2, h3⟩ := ih (v :: visited) v t p' hp'
      subst hpp
      cases p' with
      | nil => cases h1
      | cons v' rest =>
        have hv : v' = v := by
          simpa using h1
        subst hv
        refine ⟨rfl, ?_, ?_⟩
        · rw [List.getLast?_cons_cons]
          exact h2
        · show (G.adj u v' && isChain G (v' :: rest)) = true
          rw [(Bool.and_eq_true_iff.mp hvcond).1, h3]
          rfl

/-- The element named by `getLast?` belongs to the list. -/
theorem mem_of_getLast?_eq {α : Type} (l : List α) (a : α)
    (h : l.getLast? = some a) : a ∈ l := by
  obtain ⟨hne, heq⟩ := List.mem_getLast?_eq_getLast (Option.mem_def.mpr h)
  rw [heq]
  exact List.getLast_mem hne

/-- The DFS enumeration finds every duplicate-free walk whose interior
avoids the visited set. -/
theorem dfsPaths_complete (G : Graph) :
    ∀ (fuel : Nat) (p visited : List V) (u t : V),
      p.head? = some u → p.getLast? = some t → isChain G p = true →
      p.Nodup → (∀ x ∈ p.tail, x ∉ visited) → p.length ≤ fuel →
      p ∈ dfsPaths G fuel visited u t := by
  intro fuel
  induction fuel with
  | zero =>
    intro p visited u t hh _ _ _ _ hlen
    have hp : p = [] := List.length_eq_zero.mp (Nat.le_zero.mp hlen)
    subst hp
    cases hh
  | succ n ih =>
    intro p visited u t hh hl hch hnd havoid hlen
    cases p with
    | nil => cases hh
    | cons u' rest =>
      have hu : u' = u := by
        simpa using hh
      subst hu
      cases rest with
      | nil =>
        have hut : u' = t := by
          simpa using hl
        subst hut
        simp [dfsPaths]
      | cons v rest' =>
        have hlast : (v :: rest').getLast? = some t := by
          rw [← List.getLast?_cons_cons (a := u')]
          exact hl
        have hne : u' ≠ t := by
          intro hut
          subst hut
          have humem : u' ∈ v :: rest' :=
            mem_of_getLast?_eq (v :: rest') u' hlast
          exact (List.nodup_cons.mp hnd).1 humem
        have hsplit : G.adj u' v = true ∧ isChain G (v :: rest') = true :=
          Bool.and_eq_true_iff.mp
            (show (G.adj u' v && isChain G (v :: rest')) = true from hch)
        have hvtail : v ∈ (u' :: v :: rest').tail := List.mem_cons_self v rest'
        have hvfilter : v ∈ G.nodeIds.filter
            (fun w => G.adj u' w && !(visited.contains w)) := by
          rw [List.mem_filter]
          refine ⟨adj_mem_nodeIds G u' v hsplit.1, ?_⟩
          have hnv : v ∉ visited := havoid v hvtail
          simp [hsplit.1, hnv]
        simp only [dfsPaths, if_neg hne, List.mem_flatMap, List.mem_map]
        refine ⟨v, hvfilter, v :: rest', ?_, rfl⟩
        apply ih (v :: rest') (v :: visited) v t rfl hlast hsplit.2
          (List.Nodup.of_cons hnd) ?_ ?_
        · intro x hx
          rw [List.mem_cons]
          rintro (hxv | hxvis)
          · subst hxv
            exact (List.nodup_cons.mp (List.Nodup.of_cons hnd)).1 hx
          · exact havoid x (List.mem_cons_of_mem v hx) hxvis
        · have : (u' :: v :: rest').length ≤ n + 1 := hlen
          simpa using Nat.lt_succ_iff.mp (by simpa using this)

/-- Interior vertices of an adjacency chain are graph vertices. -/
theorem chain_tail_mem_nodeIds (G : Graph) :
    ∀ (rest : List V) (u : V), isChain G (u :: rest) = true →
      ∀ x ∈ rest, x ∈ G.nodeIds := by
  intro rest
  induction rest with
  | nil =>
    intro u _ x hx
    cases hx
  | cons v rest' ih =>
    intro u hch x hx
    have hsplit : G.adj u v = true ∧ isChain G (v :: rest') = true :=
      Bool.and_eq_true_iff.mp
        (show (G.adj u v && isChain G (v :: rest')) = true from hch)
    rcases List.mem_cons.mp hx with hxv | hx'
    · subst hxv
      exact adj_mem_nodeIds G u x hsplit.1
    · exact ih v hsplit.2 x hx'

/-- Every duplicate-free walk from `s` to `t` is enumerated. -/
theorem mem_allSimplePaths (G : Graph) (s t : V) (p : List V)
    (hw : IsWalk G s t p) (hnd : p.Nodup) :
    p ∈ allSimplePaths G s t := by
  obtain ⟨hh, hl, hch⟩ := hw
  apply dfsPaths_complete G (G.nodeIds.length + 1) p [s] s t hh hl hch hnd
  · cases p with
    | nil => simp
    | cons u rest =>
      have hu : u = s := by
        simpa using hh
      subst hu
      intro x hx
      simp only [List.mem_singleton]
      intro hxs
      subst hxs
      exact (List.nodup_cons.mp hnd).1 (by simpa using hx)
  · cases p with
    | nil => simp
    | cons u rest =>
      have hsub : rest ⊆ G.nodeIds :=
        fun x hx => chain_tail_mem_nodeIds G rest u hch x hx
      have hndr : rest.Nodup := List.Nodup.of_cons hnd
      have hle := (hndr.subperm hsub).length_le
      simp only [List.length_cons]
      omega

/-- The head case of `argminPath` always yields a value. -/
theorem argminPath_cons_isSome (G : Graph) (p : List V)
    (rest : List (List V)) :
    (argminPath G (p :: rest)).isSome = true := by
  show (match argminPath G rest with
    | none => some p
    | some q => if wsum G p ≤ wsum G q then some p else some q).isSome = true
  cases argminPath G rest with
  | none => rfl
  | some q => by_cases h : wsum G p ≤ wsum G q <;> simp [h]

/-- `argminPath` returns a member of the list of minimal weight. -/
theorem argminPath_spec (G : Graph) :
    ∀ (l : List (List V)) (p : List V), argminPath G l = some p →
      p ∈ l ∧ ∀ q ∈ l, wsum G p ≤ wsum G q := by
  intro l
  induction l with
  | nil =>
    intro p h
    cases h
  | cons p0 rest ih =>
    intro p h
    simp only [argminPath] at h
    cases hre : argminPath G rest with
    | none =>
      rw [hre] at h
      have hp : p = p0 := by
        injection h with hh
        exact hh.symm
      subst hp
      have hrest : rest = [] := by
        cases rest with
        | nil => rfl
        | cons a b =>
          have hs := argminPath_cons_isSome G a b
          rw [hre] at hs
          cases hs
      subst hrest
      refine ⟨List.mem_singleton.mpr rfl, ?_⟩
      intro q hq
      rw [List.mem_singleton.mp hq]
    | some q =>
      simp only [hre] at h
      obtain ⟨hqmem, hqmin⟩ := ih q hre
      by_cases hle : wsum G p0 ≤ wsum G q
      · rw [if_pos hle] at h
        have hp : p = p0 := by
          injection h with hh
          exact hh.symm
        subst hp
        refine ⟨List.mem_cons_self _ _, ?_⟩
        intro r hr
        rcases List.mem_cons.mp hr with h1 | h1
        · rw [h1]
        · exact le_trans hle (hqmin r h1)
      · rw [if_neg hle] at h
        have hp : p = q := by
          injection h with hh
          exact hh.symm
        subst hp
        refine ⟨List.mem_cons_of_mem _ hqmem, ?_⟩
        intro r hr
        rcases List.mem_cons.mp hr with h1 | h1
        · rw [h1]
          exact le_of_not_le hle
        · exact hqmin r h1

/-- `min?` on rationals: membership and lower-bound property. -/
theorem min?_rat_spec (l : List ℚ) (d : ℚ) (h : l.min? = some d) :
    d ∈ l ∧ ∀ b ∈ l, d ≤ b :=
  ⟨List.min?_mem (fun a b => min_choice a b) h,
    fun b hb =>
      (List.le_min?_iff (fun a b c => le_min_iff) h).mp (le_refl d) b hb⟩

/-- `min?` of a non-empty list yields a value. -/
theorem min?_isSome_of_ne_nil (l : List ℚ) (h : l ≠ []) :
    (l.min?).isSome = true := by
  cases l with
  | nil => exact absurd rfl h
  | cons a as => rfl

/-- C1: on a graph with all-positive edge weights, for connected endpoints
the Path Solver returns a path whose weight sum equals the reported total
distance, and no other walk between the same endpoints has strictly lower
total weight. -/
theorem shortest_path_optimal (G : Graph) (s t : V)
    (hpos : ∀ x ∈ G.edgeList, 0 < x.2.2.weight)
    (hconn : ∃ p0, IsWalk G s t p0) :
    ∃ p d, shortest_path G s t = some p ∧
      shortest_path_length G s t = some d ∧
      IsWalk G s t p ∧ wsum G p = d ∧
      ∀ q, IsWalk G s t q → d ≤ wsum G q := by
  have hw : ∀ x ∈ G.edgeList, 0 ≤ x.2.2.weight :=
    fun x hx => le_of_lt (hpos x hx)
  obtain ⟨p0, hp0⟩ := hconn
  obtain ⟨q0, hq0ch, hq0nd, hq0h, hq0l, _⟩ :=
    chain_toNodup G hw p0.length p0 (le_refl _) hp0.2.2
  have hq0walk : IsWalk G s t q0 :=
    ⟨hq0h.trans hp0.1, hq0l.trans hp0.2.1, hq0ch⟩
  have hq0mem : q0 ∈ allSimplePaths G s t :=
    mem_allSimplePaths G s t q0 hq0walk hq0nd
  have hne : allSimplePaths G s t ≠ [] := by
    intro h
    rw [h] at hq0mem
    cases hq0mem
  obtain ⟨p, hp⟩ : ∃ p, shortest_path G s t = some p := by
    unfold shortest_path
    cases hl : allSimplePaths G s t with
    | nil => exact absurd hl hne
    | cons a b =>
      exact Option.isSome_iff_exists.mp (argminPath_cons_isSome G a b)
  obtain ⟨hpmem, hpmin⟩ := argminPath_spec G _ p hp
  obtain ⟨d, hd⟩ : ∃ d, shortest_path_length G s t = some d := by
    unfold shortest_path_length
    apply Option.isSome_iff_exists.mp
    apply min?_isSome_of_ne_nil
    simpa using hne
  obtain ⟨hdmem, hdmin⟩ := min?_rat_spec _ d hd
  obtain ⟨r, hrmem, hrd⟩ := List.mem_map.mp hdmem
  have h1 : d ≤ wsum G p := hdmin _ (List.mem_map_of_mem _ hpmem)
  have h2 : wsum G p ≤ d := by
    rw [← hrd]
    exact hpmin r hrmem
  have hpd : wsum G p = d := le_antisymm h2 h1
  obtain ⟨hph, hpl, hpch⟩ :=
    dfsPaths_sound G (G.nodeIds.length + 1) [s] s t p hpmem
  refine ⟨p, d, hp, hd, ⟨hph, hpl, hpch⟩, hpd, ?_⟩
  intro q hq
  obtain ⟨q', hq'ch, hq'nd, hq'h, hq'l, hq'le⟩ :=
    chain_toNodup G hw q.length q (le_refl _) hq.2.2
  have hq'mem : q' ∈ allSimplePaths G s t :=
    mem_allSimplePaths G s t q'
      ⟨hq'h.trans hq.1, hq'l.trans hq.2.1, hq'ch⟩ hq'nd
  have h3 := hdmin _ (List.mem_map_of_mem _ hq'mem)
  exact le_trans h3 hq'le

/-- Witness for `shortest_path_optimal` on the fixture graph: path 1-2-3
with total weight 3 beats the direct edge 1-3 of weight 7. -/
theorem shortest_path_optimal_witness :
    (shortest_path gFix 1 3).isSome = true ∧
      (shortest_path_length gFix 1 3).isSome = true := by
  obtain ⟨p, d, hp, hd, _⟩ := shortest_path_optimal gFix 1 3
    (by norm_num [gFix])
    ⟨[1, 2, 3], by refine ⟨rfl, rfl, ?_⟩; decide⟩
  rw [hp, hd]
  exact ⟨rfl, rfl⟩
